/-
Verification of the resilience-layer utilities of the libraries.io MCP server
(`src/libraries_io_mcp/utils.py`): the token-bucket `RateLimiter`, the TTL
`MemoryCache` with least-recently-accessed eviction, the `RetryHandler` with
exponential backoff, and the `HTTPClientHelper` response classifiers.

Python floats (timestamps, durations) are modelled as rationals (ℚ), Python
ints as ℤ, and Python dicts as insertion-ordered association lists.
-/
import Mathlib

set_option maxHeartbeats 1000000

namespace LibIoMcp

/-- Python `int(q)` on a float/rational: truncation toward zero. -/
def pyInt (q : ℚ) : ℤ := if q < 0 then ⌈q⌉ else ⌊q⌋

/-! ## RateLimiter (utils.py lines 26-103)

State of a `RateLimiter` instance: `limit` and `window_seconds` are set by the
constructor; `tokens` starts at `limit`; `last_refill` starts at the
construction time. -/

structure RateLimiterState where
  limit : ℤ
  window_seconds : ℚ
  tokens : ℤ
  last_refill : ℚ
  deriving Repr, DecidableEq

/-- `RateLimiter.__init__(limit, window_seconds)` at construction time `now`:
`tokens = limit`, `last_refill = time.time()`. -/
def RateLimiter.init (limit : ℤ) (window_seconds : ℚ) (now : ℚ) : RateLimiterState :=
  ⟨limit, window_seconds, limit, now⟩

/-- One refill computation of `RateLimiter.acquire` at wall-clock time `now`
(lines 51-62, repeated at lines 68-78 inside the wait loop):
if `time_passed >= window_seconds` reset `tokens` to `limit`, else add
`int(time_passed / window_seconds * limit)` tokens capped at `limit`;
either way advance `last_refill` to `now`. -/
def refill (s : RateLimiterState) (now : ℚ) : RateLimiterState :=
  let time_passed := now - s.last_refill
  if s.window_seconds ≤ time_passed then
    { s with tokens := s.limit, last_refill := now }
  else
    { s with
      tokens := min s.limit (s.tokens + pyInt (time_passed / s.window_seconds * (s.limit : ℚ))),
      last_refill := now }

/-- The sequence of refill computations performed by one `acquire` call: one on
entry, then one per iteration of the wait loop, at the successive wall-clock
times `ts`. -/
def refillSteps (s : RateLimiterState) (ts : List ℚ) : RateLimiterState :=
  ts.foldl refill s

/-- One `acquire(req)` call observed at entry time `t0` and at wake-up times
`waits` (one per executed sleep of the wait loop). -/
structure AcquireCall where
  req : ℤ
  t0 : ℚ
  waits : List ℚ

/-- The state after a completed `acquire` call: all refills, then
`tokens -= req` (line 81). -/
def runCall (s : RateLimiterState) (c : AcquireCall) : RateLimiterState :=
  let s' := refillSteps s (c.t0 :: c.waits)
  { s' with tokens := s'.tokens - c.req }

/-- A call is valid and completed when it requests between 1 and `limit`
tokens, its observation times are monotone from the limiter's clock, and the
wait-loop guard `tokens < req` finally fails (line 65), letting consumption
happen. -/
def ValidCall (s : RateLimiterState) (c : AcquireCall) : Prop :=
  1 ≤ c.req ∧ c.req ≤ s.limit ∧
  List.Chain (· ≤ ·) s.last_refill (c.t0 :: c.waits) ∧
  c.req ≤ (refillSteps s (c.t0 :: c.waits)).tokens

/-- Finite sequences of completed `acquire` calls. -/
inductive RunAcquires : RateLimiterState → List AcquireCall → RateLimiterState → Prop
  | nil (s : RateLimiterState) : RunAcquires s [] s
  | cons {s s' : RateLimiterState} {c : AcquireCall} {cs : List AcquireCall} :
      ValidCall s c → RunAcquires (runCall s c) cs s' → RunAcquires s (c :: cs) s'

/-- The token-bucket invariant. -/
def TokensInv (s : RateLimiterState) : Prop := 0 ≤ s.tokens ∧ s.tokens ≤ s.limit

/-! ## MemoryCache (utils.py lines 106-218)

Python dicts are modelled as insertion-ordered association lists with unique
keys: `dictInsert` updates an existing key in place or appends a new one
(`d[k] = v`), `dictDel` removes a key (`del d[k]`), `dictGet` looks a key up
(`d.get(k)` / `k in d`). -/

/-- `d.get(key)`. -/
def dictGet {α : Type} : List (String × α) → String → Option α
  | [], _ => none
  | (k, v) :: rest, key => if k = key then some v else dictGet rest key

/-- `key in d`. -/
def dictMem {α : Type} (d : List (String × α)) (key : String) : Bool :=
  (dictGet d key).isSome

/-- `d[key] = val`: update in place if the key exists, else append. -/
def dictInsert {α : Type} : List (String × α) → String → α → List (String × α)
  | [], key, val => [(key, val)]
  | (k, v) :: rest, key, val =>
      if k = key then (k, val) :: rest else (k, v) :: dictInsert rest key val

/-- `del d[key]`: remove the (unique) binding of `key`. -/
def dictDel {α : Type} : List (String × α) → String → List (String × α)
  | [], _ => []
  | (k, v) :: rest, key => if k = key then rest else (k, v) :: dictDel rest key

/-- `CacheEntry` (lines 106-119): stored payload and absolute expiry time. -/
structure CacheEntry (α : Type) where
  data : α
  expires_at : ℚ
  deriving Repr, DecidableEq

/-- `CacheEntry.is_expired` (line 115): `time.time() > self.expires_at`. -/
def CacheEntry.is_expired {α : Type} (e : CacheEntry α) (now : ℚ) : Bool :=
  decide (e.expires_at < now)

/-- State of a `MemoryCache` instance: configuration plus the entry dict and
the parallel access-time dict. -/
structure MemoryCache (α : Type) where
  default_ttl : ℚ
  max_size : ℕ
  cache : List (String × CacheEntry α)
  access_times : List (String × ℚ)
  deriving Repr

/-- `MemoryCache.__init__(default_ttl, max_size)`: both dicts start empty. -/
def MemoryCache.init (α : Type) (default_ttl : ℚ) (max_size : ℕ) : MemoryCache α :=
  ⟨default_ttl, max_size, [], []⟩

/-- `min(self._access_times.items(), key=lambda x: x[1])[0]` (line 205): the
first key attaining the minimal access time, in dict iteration order. -/
def minByValAux (k : String) (v : ℚ) : List (String × ℚ) → String
  | [] => k
  | (k', v') :: rest => if v' < v then minByValAux k' v' rest else minByValAux k v rest

def minByVal : List (String × ℚ) → Option String
  | [] => none
  | (k, v) :: rest => some (minByValAux k v rest)

/-- `MemoryCache._evict_oldest` (lines 200-207): no-op when the access-time
dict is empty, else delete the least-recently-accessed key from both dicts. -/
def MemoryCache.evict_oldest {α : Type} (c : MemoryCache α) : MemoryCache α :=
  match minByVal c.access_times with
  | none => c
  | some oldest_key =>
      { c with
        cache := dictDel c.cache oldest_key,
        access_times := dictDel c.access_times oldest_key }

/-- `ttl or self.default_ttl` (line 196): Python `or` takes the default when
`ttl` is `None` or `0`. -/
def ttlOrDefault (ttl : Option ℚ) (default_ttl : ℚ) : ℚ :=
  match ttl with
  | none => default_ttl
  | some t => if t = 0 then default_ttl else t

/-- `MemoryCache.set` (lines 178-198) at wall-clock time `now`, addressed by
the generated cache key: evict if `len(self._cache) >= self.max_size`, then
store the entry with `expires_at = now + (ttl or default_ttl)` and record the
access time. -/
def MemoryCache.set {α : Type} (c : MemoryCache α) (key : String) (data : α)
    (now : ℚ) (ttl : Option ℚ) : MemoryCache α :=
  let c1 := if c.max_size ≤ c.cache.length then c.evict_oldest else c
  let expires_at := now + ttlOrDefault ttl c1.default_ttl
  { c1 with
    cache := dictInsert c1.cache key ⟨data, expires_at⟩,
    access_times := dictInsert c1.access_times key now }

/-- `MemoryCache.get` (lines 148-176) at wall-clock time `now`: returns the
value (or `None`) together with the updated cache state. -/
def MemoryCache.get {α : Type} (c : MemoryCache α) (key : String) (now : ℚ) :
    Option α × MemoryCache α :=
  match dictGet c.cache key with
  | none => (none, c)
  | some entry =>
      if entry.is_expired now then
        (none,
         { c with
           cache := dictDel c.cache key,
           access_times := if dictMem c.access_times key
                           then dictDel c.access_times key else c.access_times })
      else
        (some entry.data, { c with access_times := dictInsert c.access_times key now })

/-- `MemoryCache.size` (lines 215-218). -/
def MemoryCache.size {α : Type} (c : MemoryCache α) : ℕ := c.cache.length

/-- A sequence of `set` calls: key, payload, wall-clock time; `ttl = None`. -/
def setCalls {α : Type} (c : MemoryCache α) (calls : List (String × α × ℚ)) :
    MemoryCache α :=
  calls.foldl (fun acc call => acc.set call.1 call.2.1 call.2.2 none) c

/-- The two dicts of a `MemoryCache` hold exactly the same keys, each at most
once (true of every reachable cache state). -/
def SyncInv {α : Type} (c : MemoryCache α) : Prop :=
  c.cache.map Prod.fst = c.access_times.map Prod.fst ∧
  (c.cache.map Prod.fst).Nodup

/-! ## RetryHandler (utils.py lines 221-274)

The retried operation is modelled as a function from the attempt index to the
outcome of that invocation; delays and jitter only affect wall-clock time, not
control flow, and are not modelled. -/

/-- Outcome of one invocation of the wrapped operation: normal return, or a
raised exception. -/
inductive PyOutcome (E V : Type) where
  | ok (v : V)
  | exn (e : E)
  deriving Repr, DecidableEq

/-- Result of `RetryHandler.retry`: a returned value, a re-raised exception
from the operation, or the final `Exception("Unknown error occurred")`
fallback at line 274. -/
inductive RetryResult (E V : Type) where
  | value (v : V)
  | raised (e : E)
  | unknownError
  deriving Repr, DecidableEq

/-- The `for attempt in range(max_retries + 1)` loop of `retry`
(lines 252-273), with `remaining` iterations left, tracking `last_exception`
and the number of invocations of the operation made so far.  Exiting the loop
with iterations exhausted reaches lines 272-274. -/
def retryLoop {E V : Type} (f : ℕ → PyOutcome E V) :
    ℕ → ℕ → Option E → ℕ → RetryResult E V × ℕ
  | 0, _, last, calls =>
      (match last with
       | some e => RetryResult.raised e
       | none => RetryResult.unknownError, calls)
  | remaining + 1, attempt, _, calls =>
      match f attempt with
      | PyOutcome.ok v => (RetryResult.value v, calls + 1)
      | PyOutcome.exn e => retryLoop f remaining (attempt + 1) (some e) (calls + 1)

/-- `RetryHandler.retry(func)` (lines 237-274) with configuration
`max_retries`: runs the loop for `max_retries + 1` iterations (a Python
`range`, hence empty when `max_retries + 1 <= 0`).  Returns the result and
the number of times the operation was invoked. -/
def RetryHandler.retry {E V : Type} (max_retries : ℤ) (f : ℕ → PyOutcome E V) :
    RetryResult E V × ℕ :=
  retryLoop f (max_retries + 1).toNat 0 none 0

/-! ## HTTPClientHelper.parse_rate_limit (utils.py lines 280-299) -/

/-- `RateLimitInfo` (lines 17-23). -/
structure RateLimitInfo where
  limit : ℤ
  remaining : ℤ
  reset : ℚ
  used : ℤ
  deriving Repr, DecidableEq

/-- Surrounding-whitespace removal on a character list (`str.strip()` as the
number conversions apply it). -/
def trimChars (cs : List Char) : List Char :=
  ((cs.dropWhile Char.isWhitespace).reverse.dropWhile Char.isWhitespace).reverse

/-- Numeric value of a digit string. -/
def digitsVal (cs : List Char) : ℕ :=
  cs.foldl (fun acc c => 10 * acc + (c.toNat - 48)) 0

/-- Split an optional leading sign off a trimmed character list, returning
whether the value is negated and the remaining characters. -/
def splitSign : List Char → Bool × List Char
  | [] => (false, [])
  | c :: rest =>
      if c = '-' then (true, rest)
      else if c = '+' then (false, rest)
      else (false, c :: rest)

/-- Python `int(s)` on a string: optional surrounding whitespace, optional
sign, then a nonempty digit string; raises `ValueError` (here `none`)
otherwise. -/
def pyParseInt (s : String) : Option ℤ :=
  let sc := splitSign (trimChars s.data)
  if sc.2 ≠ [] ∧ sc.2.all Char.isDigit then
    some (if sc.1 then -(digitsVal sc.2 : ℤ) else (digitsVal sc.2 : ℤ))
  else none

/-- Python `float(s)` on a string: optional surrounding whitespace, optional
sign, digits with an optional fractional part (at least one digit overall);
raises `ValueError` (here `none`) otherwise.  Exotic spellings (exponents,
`inf`, `nan`) are outside the fragment the claims exercise. -/
def pyParseFloat (s : String) : Option ℚ :=
  let sc := splitSign (trimChars s.data)
  let ip := sc.2.takeWhile (fun c => c ≠ '.')
  match sc.2.dropWhile (fun c => c ≠ '.') with
  | [] =>
      if ip ≠ [] ∧ ip.all Char.isDigit then
        some (if sc.1 then -(digitsVal ip : ℚ) else (digitsVal ip : ℚ))
      else none
  | _ :: frac =>
      if ¬ frac.contains '.' ∧ (ip ≠ [] ∨ frac ≠ []) ∧
         ip.all Char.isDigit ∧ frac.all Char.isDigit then
        let mag : ℚ := (digitsVal ip : ℚ) + (digitsVal frac : ℚ) / (10 : ℚ) ^ frac.length
        some (if sc.1 then -mag else mag)
      else none

/-- `int(headers.get(name, 0))`: a missing header falls back to the integer
`0`, on which `int` succeeds; a present header is parsed and may raise. -/
def headerInt (headers : List (String × String)) (name : String) : Option ℤ :=
  match dictGet headers name with
  | none => some 0
  | some s => pyParseInt s

/-- `float(headers.get(name, 0))`. -/
def headerFloat (headers : List (String × String)) (name : String) : Option ℚ :=
  match dictGet headers name with
  | none => some 0
  | some s => pyParseFloat s

/-- `HTTPClientHelper.parse_rate_limit(headers)` (lines 280-299): builds a
`RateLimitInfo` with `used = limit - remaining`; any `ValueError` from the
conversions yields `None`. -/
def HTTPClientHelper.parse_rate_limit (headers : List (String × String)) :
    Option RateLimitInfo :=
  match headerInt headers "x-ratelimit-limit",
        headerInt headers "x-ratelimit-remaining",
        headerFloat headers "x-ratelimit-reset" with
  | some limit, some remaining, some reset =>
      some ⟨limit, remaining, reset, limit - remaining⟩
  | _, _, _ => none

/-! ## HTTPClientHelper.get_error_message (utils.py lines 315-333)

`json.loads` is abstracted as an oracle argument `parsed : Option PyJson`:
`none` stands for a `json.JSONDecodeError`, `some j` for a successful parse of
`response_text` into the Python value `j`.  The function's own control flow
(lines 326-333) is modelled exactly.  Because the Python function can return
a non-string JSON value (`data.get('message')` is returned as-is), the model's
return type is a Python value. -/

/-- A value produced by `json.loads`. -/
inductive PyJson where
  | null
  | bool (b : Bool)
  | int (n : ℤ)
  | float (q : ℚ)
  | str (s : String)
  | arr (xs : List PyJson)
  | obj (fields : List (String × PyJson))

mutual

/-- Python `str()` of a loaded JSON value: `None`/`True`/`False`, `repr` for
strings (single quotes), and `\x7b...\x7d` / `[...]` for dicts and lists.
Float formatting is approximated (claims never evaluate it). -/
def PyJson.pyStr : PyJson → String
  | PyJson.null => "None"
  | PyJson.bool b => if b then "True" else "False"
  | PyJson.int n => toString n
  | PyJson.float q => toString q
  | PyJson.str s => "'" ++ s ++ "'"
  | PyJson.arr xs => "[" ++ PyJson.pyStrList xs ++ "]"
  | PyJson.obj fields => "\x7b" ++ PyJson.pyStrFields fields ++ "\x7d"

def PyJson.pyStrList : List PyJson → String
  | [] => ""
  | [x] => PyJson.pyStr x
  | x :: rest => PyJson.pyStr x ++ ", " ++ PyJson.pyStrList rest

def PyJson.pyStrFields : List (String × PyJson) → String
  | [] => ""
  | [(k, v)] => "'" ++ k ++ "': " ++ PyJson.pyStr v
  | (k, v) :: rest => "'" ++ k ++ "': " ++ PyJson.pyStr v ++ ", " ++ PyJson.pyStrFields rest

end

/-- Lookup in a dict of JSON fields (`data.get('message', default)`). -/
def jsonGet : List (String × PyJson) → String → Option PyJson
  | [], _ => none
  | (k, v) :: rest, key => if k = key then some v else jsonGet rest key

/-- `HTTPClientHelper.get_error_message(response_text)` (lines 315-333), with
the result of `json.loads(response_text)` supplied as `parsed`: an object with
a `message` field returns that field's value verbatim; an object without one
returns `str(data)`; anything else — non-object JSON or a parse failure —
falls through to `return response_text`. -/
def HTTPClientHelper.get_error_message (parsed : Option PyJson)
    (response_text : String) : PyJson :=
  match parsed with
  | some (PyJson.obj fields) =>
      match jsonGet fields "message" with
      | some v => v
      | none => PyJson.str (PyJson.pyStr (PyJson.obj fields))
  | some _ => PyJson.str response_text
  | none => PyJson.str response_text

/-! ## MemoryCache._generate_key (utils.py lines 139-146)

`json.dumps({'endpoint': endpoint, 'params': params or {}}, sort_keys=True)`
followed by `hashlib.md5(...).hexdigest()`.  Parameter values are modelled as
strings; `json.dumps` (default separators, `ensure_ascii=True`, sorted keys)
and MD5 are implemented below. -/

/-- Lowercase hex digit. -/
def hexDigit (n : ℕ) : Char :=
  if n < 10 then Char.ofNat (48 + n) else Char.ofNat (87 + n)

/-- Four lowercase hex digits of a 16-bit value (for `\uXXXX` escapes). -/
def u16hex (n : ℕ) : List Char :=
  [hexDigit (n / 4096 % 16), hexDigit (n / 256 % 16), hexDigit (n / 16 % 16), hexDigit (n % 16)]

/-- `json.dumps` escaping of one character with `ensure_ascii=True`: the
two-character escapes of the JSON grammar, `\uXXXX` (with surrogate pairs
beyond the basic plane) for other control or non-ASCII characters. -/
def jsonEscapeChar (c : Char) : List Char :=
  let n := c.toNat
  if c = '"' then ['\\', '"']
  else if c = '\\' then ['\\', '\\']
  else if n = 10 then ['\\', 'n']
  else if n = 9 then ['\\', 't']
  else if n = 13 then ['\\', 'r']
  else if n = 8 then ['\\', 'b']
  else if n = 12 then ['\\', 'f']
  else if n < 0x20 ∨ 0x7e < n then
    if n < 0x10000 then '\\' :: 'u' :: u16hex n
    else
      ('\\' :: 'u' :: u16hex (0xd800 + (n - 0x10000) / 0x400)) ++
      ('\\' :: 'u' :: u16hex (0xdc00 + (n - 0x10000) % 0x400))
  else [c]

/-- A JSON string literal as `json.dumps` renders it. -/
def jsonQuote (s : String) : String :=
  String.mk ('"' :: (s.data.flatMap jsonEscapeChar ++ ['"']))

/-- `sort_keys=True`: the dict items are serialized in sorted key order. -/
def sortParams (params : List (String × String)) : List (String × String) :=
  params.mergeSort (fun a b => decide (a.1 ≤ b.1))

/-- `"k": "v"` pairs joined with the default `", "` separator. -/
def joinFields : List (String × String) → String
  | [] => ""
  | [(k, v)] => jsonQuote k ++ ": " ++ jsonQuote v
  | (k, v) :: rest => jsonQuote k ++ ": " ++ jsonQuote v ++ ", " ++ joinFields rest

/-- `json.dumps({'endpoint': endpoint, 'params': params}, sort_keys=True)`:
the top-level keys `endpoint` < `params` already appear in sorted order. -/
def dumpsKeyData (endpoint : String) (params : List (String × String)) : String :=
  "\x7b\"endpoint\": " ++ jsonQuote endpoint ++ ", \"params\": \x7b" ++
    joinFields (sortParams params) ++ "\x7d\x7d"

/-! MD5 (RFC 1321), operating on the UTF-8 bytes of the serialized key data.
Words are naturals reduced mod `2^32` at every operation. -/

/-- The 64 MD5 sine-table constants. -/
def md5K : List ℕ :=
  [0xd76aa478, 0xe8c7b756, 0x242070db, 0xc1bdceee,
   0xf57c0faf, 0x4787c62a, 0xa8304613, 0xfd469501,
   0x698098d8, 0x8b44f7af, 0xffff5bb1, 0x895cd7be,
   0x6b901122, 0xfd987193, 0xa679438e, 0x49b40821,
   0xf61e2562, 0xc040b340, 0x265e5a51, 0xe9b6c7aa,
   0xd62f105d, 0x02441453, 0xd8a1e681, 0xe7d3fbc8,
   0x21e1cde6, 0xc33707d6, 0xf4d50d87, 0x455a14ed,
   0xa9e3e905, 0xfcefa3f8, 0x676f02d9, 0x8d2a4c8a,
   0xfffa3942, 0x8771f681, 0x6d9d6122, 0xfde5380c,
   0xa4beea44, 0x4bdecfa9, 0xf6bb4b60, 0xbebfbc70,
   0x289b7ec6, 0xeaa127fa, 0xd4ef3085, 0x04881d05,
   0xd9d4d039, 0xe6db99e5, 0x1fa27cf8, 0xc4ac5665,
   0xf4292244, 0x432aff97, 0xab9423a7, 0xfc93a039,
   0x655b59c3, 0x8f0ccc92, 0xffeff47d, 0x85845dd1,
   0x6fa87e4f, 0xfe2ce6e0, 0xa3014314, 0x4e0811a1,
   0xf7537e82, 0xbd3af235, 0x2ad7d2bb, 0xeb86d391]

/-- The 64 MD5 per-round left-rotation amounts. -/
def md5S : List ℕ :=
  [7, 12, 17, 22, 7, 12, 17, 22, 7, 12, 17, 22, 7, 12, 17, 22,
   5, 9, 14, 20, 5, 9, 14, 20, 5, 9, 14, 20, 5, 9, 14, 20,
   4, 11, 16, 23, 4, 11, 16, 23, 4, 11, 16, 23, 4, 11, 16, 23,
   6, 10, 15, 21, 6, 10, 15, 21, 6, 10, 15, 21, 6, 10, 15, 21]

/-- 32-bit left rotation. -/
def rotl32 (x n : ℕ) : ℕ := ((x <<< n) ||| (x >>> (32 - n))) % 2 ^ 32

/-- Little-endian bytes of a 64-bit length field. -/
def word64LE (n : ℕ) : List ℕ := (List.range 8).map (fun i => n >>> (8 * i) % 256)

/-- Little-endian bytes of a 32-bit word. -/
def word32LE (n : ℕ) : List ℕ := [n % 256, n >>> 8 % 256, n >>> 16 % 256, n >>> 24 % 256]

/-- MD5 padding: `0x80`, zeros to 56 mod 64, then the bit length mod `2^64`
little-endian. -/
def md5pad (msg : List ℕ) : List ℕ :=
  msg ++ 0x80 :: List.replicate ((120 - (msg.length + 1) % 64) % 64) 0 ++
    word64LE (msg.length * 8 % 2 ^ 64)

/-- Word `g` of a 64-byte chunk, little-endian. -/
def chunkWord (chunk : List ℕ) (g : ℕ) : ℕ :=
  chunk.getD (4 * g) 0 + 256 * chunk.getD (4 * g + 1) 0 +
    65536 * chunk.getD (4 * g + 2) 0 + 16777216 * chunk.getD (4 * g + 3) 0

/-- One of the 64 MD5 rounds. -/
def md5round (chunk : List ℕ) (st : ℕ × ℕ × ℕ × ℕ) (i : ℕ) : ℕ × ℕ × ℕ × ℕ :=
  let a := st.1; let b := st.2.1; let c := st.2.2.1; let d := st.2.2.2
  let fg : ℕ × ℕ :=
    if i < 16 then ((b &&& c) ||| ((b ^^^ 0xffffffff) &&& d), i)
    else if i < 32 then ((d &&& b) ||| ((d ^^^ 0xffffffff) &&& c), (5 * i + 1) % 16)
    else if i < 48 then (b ^^^ c ^^^ d, (3 * i + 5) % 16)
    else (c ^^^ (b ||| (d ^^^ 0xffffffff)), 7 * i % 16)
  let f := (fg.1 + a + md5K.getD i 0 + chunkWord chunk fg.2) % 2 ^ 32
  (d, (b + rotl32 f (md5S.getD i 0)) % 2 ^ 32, b, c)

/-- Process one 64-byte chunk. -/
def md5chunk (st : ℕ × ℕ × ℕ × ℕ) (chunk : List ℕ) : ℕ × ℕ × ℕ × ℕ :=
  let r := (List.range 64).foldl (md5round chunk) st
  ((st.1 + r.1) % 2 ^ 32, (st.2.1 + r.2.1) % 2 ^ 32,
   (st.2.2.1 + r.2.2.1) % 2 ^ 32, (st.2.2.2 + r.2.2.2) % 2 ^ 32)

/-- The 16 digest bytes of the MD5 of a byte string. -/
def md5bytes (msg : List ℕ) : List ℕ :=
  let padded := md5pad msg
  let final := (List.range (padded.length / 64)).foldl
    (fun st i => md5chunk st ((padded.drop (64 * i)).take 64))
    (0x67452301, 0xefcdab89, 0x98badcfe, 0x10325476)
  word32LE final.1 ++ word32LE final.2.1 ++ word32LE final.2.2.1 ++ word32LE final.2.2.2

/-- Two lowercase hex digits of a byte. -/
def byteHex (b : ℕ) : List Char := [hexDigit (b / 16), hexDigit (b % 16)]

/-- `hashlib.md5(data).hexdigest()`. -/
def md5hex (msg : List ℕ) : String := String.mk ((md5bytes msg).flatMap byteHex)

/-- The UTF-8 bytes of a string (`str.encode()`). -/
def strBytes (s : String) : List ℕ := s.toUTF8.toList.map (fun b => b.toNat)

/-- `MemoryCache._generate_key(endpoint, params)` (lines 139-146). -/
def MemoryCache.generate_key (endpoint : String) (params : List (String × String)) :
    String :=
  md5hex (strBytes (dumpsKeyData endpoint params))

/-! ## Two tasks running `RateLimiter.acquire` concurrently (utils.py lines 50-81)

Cooperative (asyncio) execution of two tasks, each calling `acquire` on the
same limiter.  Suspension points are exactly those of the code: acquiring the
instance lock (`async with self._lock`, line 50) and `asyncio.sleep`
(line 67).  Everything between two suspension points runs atomically.  An
`asyncio.Lock` is held from entry into the `async with` block until the block
exits — `asyncio.sleep` suspends the task but does not release the lock. -/

/-- Position of a task in its `acquire` call: not yet past the lock
acquisition; suspended in `asyncio.sleep` inside the wait loop (holding the
lock); or returned (lock released). -/
inductive TaskPC where
  | entry
  | sleeping
  | finished
  deriving Repr, DecidableEq

/-- Two tasks (0 and 1) with their requested token counts, the shared limiter
state, and the holder of the limiter's `asyncio.Lock`. -/
structure TwoTaskState where
  limiter : RateLimiterState
  lock : Option ℕ
  pc0 : TaskPC
  pc1 : TaskPC
  req0 : ℤ
  req1 : ℤ
  deriving Repr, DecidableEq

/-- One scheduler step at wall-clock time `t`.  A task at `entry` can run only
when the lock is free; it then acquires the lock, performs the entry refill
(lines 51-62), and either consumes and releases (guard at line 65 false) or
reaches the sleep at line 67 still holding the lock.  A `sleeping` task wakes,
refills (lines 68-78), and likewise either consumes and releases or sleeps
again.  No transition exists for a task at `entry` while the other holds the
lock: `async with self._lock` blocks it. -/
inductive SchedStep : TwoTaskState → TwoTaskState → Prop
  | enter0_done (s : TwoTaskState) (t : ℚ)
      (hl : s.lock = none) (hp : s.pc0 = TaskPC.entry)
      (hok : s.req0 ≤ (refill s.limiter t).tokens) :
      SchedStep s { s with
        limiter := { refill s.limiter t with
                     tokens := (refill s.limiter t).tokens - s.req0 },
        lock := none, pc0 := TaskPC.finished }
  | enter0_wait (s : TwoTaskState) (t : ℚ)
      (hl : s.lock = none) (hp : s.pc0 = TaskPC.entry)
      (hw : (refill s.limiter t).tokens < s.req0) :
      SchedStep s { s with
        limiter := refill s.limiter t, lock := some 0, pc0 := TaskPC.sleeping }
  | wake0_done (s : TwoTaskState) (t : ℚ)
      (hl : s.lock = some 0) (hp : s.pc0 = TaskPC.sleeping)
      (hok : s.req0 ≤ (refill s.limiter t).tokens) :
      SchedStep s { s with
        limiter := { refill s.limiter t with
                     tokens := (refill s.limiter t).tokens - s.req0 },
        lock := none, pc0 := TaskPC.finished }
  | wake0_wait (s : TwoTaskState) (t : ℚ)
      (hl : s.lock = some 0) (hp : s.pc0 = TaskPC.sleeping)
      (hw : (refill s.limiter t).tokens < s.req0) :
      SchedStep s { s with limiter := refill s.limiter t }
  | enter1_done (s : TwoTaskState) (t : ℚ)
      (hl : s.lock = none) (hp : s.pc1 = TaskPC.entry)
      (hok : s.req1 ≤ (refill s.limiter t).tokens) :
      SchedStep s { s with
        limiter := { refill s.limiter t with
                     tokens := (refill s.limiter t).tokens - s.req1 },
        lock := none, pc1 := TaskPC.finished }
  | enter1_wait (s : TwoTaskState) (t : ℚ)
      (hl : s.lock = none) (hp : s.pc1 = TaskPC.entry)
      (hw : (refill s.limiter t).tokens < s.req1) :
      SchedStep s { s with
        limiter := refill s.limiter t, lock := some 1, pc1 := TaskPC.sleeping }
  | wake1_done (s : TwoTaskState) (t : ℚ)
      (hl : s.lock = some 1) (hp : s.pc1 = TaskPC.sleeping)
      (hok : s.req1 ≤ (refill s.limiter t).tokens) :
      SchedStep s { s with
        limiter := { refill s.limiter t with
                     tokens := (refill s.limiter t).tokens - s.req1 },
        lock := none, pc1 := TaskPC.finished }
  | wake1_wait (s : TwoTaskState) (t : ℚ)
      (hl : s.lock = some 1) (hp : s.pc1 = TaskPC.sleeping)
      (hw : (refill s.limiter t).tokens < s.req1) :
      SchedStep s { s with limiter := refill s.limiter t }

/-- Reachability under scheduler steps. -/
def SchedReach : TwoTaskState → TwoTaskState → Prop :=
  Relation.ReflTransGen SchedStep

/-- Concrete scenario: a limiter with `limit = 1`, `window_seconds = 60`,
whose single token is already spent, and two tasks each wanting one token,
neither having run yet. -/
def schedInit : TwoTaskState :=
  { limiter := ⟨1, 60, 0, 0⟩, lock := none,
    pc0 := TaskPC.entry, pc1 := TaskPC.entry, req0 := 1, req1 := 1 }

/-- The state after task 0's first step at time 0: the entry refill adds
nothing, so task 0 is suspended in the wait loop holding the lock. -/
def schedBlocked : TwoTaskState :=
  { limiter := ⟨1, 60, 0, 0⟩, lock := some 0,
    pc0 := TaskPC.sleeping, pc1 := TaskPC.entry, req0 := 1, req1 := 1 }

/-! ## Theorems -/

theorem refill_limit (s : RateLimiterState) (t : ℚ) : (refill s t).limit = s.limit := by
  unfold refill; dsimp only; split <;> rfl

theorem refill_window (s : RateLimiterState) (t : ℚ) :
    (refill s t).window_seconds = s.window_seconds := by
  unfold refill; dsimp only; split <;> rfl

theorem refill_last_refill (s : RateLimiterState) (t : ℚ) : (refill s t).last_refill = t := by
  unfold refill; dsimp only; split <;> rfl

theorem refill_tokens_le (s : RateLimiterState) (t : ℚ) : (refill s t).tokens ≤ s.limit := by
  unfold refill; dsimp only; split
  · exact le_refl _
  · exact min_le_left _ _

theorem refillSteps_limit (s : RateLimiterState) (ts : List ℚ) :
    (refillSteps s ts).limit = s.limit := by
  induction ts generalizing s with
  | nil => rfl
  | cons t ts ih => simpa [refillSteps, List.foldl_cons, refill_limit] using ih (refill s t)

theorem refillSteps_window (s : RateLimiterState) (ts : List ℚ) :
    (refillSteps s ts).window_seconds = s.window_seconds := by
  induction ts generalizing s with
  | nil => rfl
  | cons t ts ih => simpa [refillSteps, List.foldl_cons, refill_window] using ih (refill s t)

theorem refillSteps_tokens_le (s : RateLimiterState) (t : ℚ) (ts : List ℚ) :
    (refillSteps s (t :: ts)).tokens ≤ s.limit := by
  induction ts generalizing s t with
  | nil => exact refill_tokens_le s t
  | cons t' ts ih =>
      have h := ih (refill s t) t'
      rw [refill_limit] at h
      simpa [refillSteps, List.foldl_cons] using h

/-- C1: the claim says a call `acquire(tokens)` with `tokens > limit` is
rejected with an error instead of hanging.  The code has no such guard: after
every refill the bucket holds at most `limit` tokens, so the wait-loop guard
`self.tokens < tokens` (line 65) holds after the entry refill and after every
wake-up refill, whatever the elapsed times — the loop never exits, the call
neither returns nor raises.  This contradicts the claim (and the spec's
stated intent), so the code is the bug: the call hangs forever. -/
theorem rateLimiter_acquire_over_limit_hangs (s : RateLimiterState) (req : ℤ)
    (hreq : s.limit < req) (t0 : ℚ) (ts : List ℚ) :
    (refillSteps s (t0 :: ts)).tokens < req :=
  lt_of_le_of_lt (refillSteps_tokens_le s t0 ts) hreq

/-- C1 witness: `RateLimiter(1, 60)` with `acquire(2)`: the wait-loop guard
still holds after the entry refill. -/
theorem rateLimiter_acquire_over_limit_hangs_witness :
    (refillSteps (RateLimiter.init 1 60 0) [(0 : ℚ)]).tokens < 2 :=
  rateLimiter_acquire_over_limit_hangs (RateLimiter.init 1 60 0) 2 (by decide) 0 []

theorem tokensInv_refill (s : RateLimiterState) (t : ℚ) (h0 : 0 ≤ s.limit)
    (hinv : TokensInv s) (ht : s.last_refill ≤ t) : TokensInv (refill s t) := by
  obtain ⟨hlo, hhi⟩ := hinv
  unfold refill; dsimp only; split
  · exact ⟨h0, le_refl _⟩
  · rename_i hlt
    push_neg at hlt
    have htp : (0 : ℚ) ≤ t - s.last_refill := by linarith
    have hwpos : (0 : ℚ) < s.window_seconds := lt_of_le_of_lt htp hlt
    have hq : (0 : ℚ) ≤ (t - s.last_refill) / s.window_seconds * (s.limit : ℚ) := by
      have h1 : (0 : ℚ) ≤ (t - s.last_refill) / s.window_seconds := div_nonneg htp hwpos.le
      have h2 : (0 : ℚ) ≤ (s.limit : ℚ) := by exact_mod_cast h0
      exact mul_nonneg h1 h2
    have hadd : 0 ≤ pyInt ((t - s.last_refill) / s.window_seconds * (s.limit : ℚ)) := by
      unfold pyInt
      rw [if_neg (not_lt.mpr hq)]
      exact Int.floor_nonneg.mpr hq
    constructor
    · exact le_min h0 (by linarith)
    · exact min_le_left _ _

theorem tokensInv_refillSteps (s : RateLimiterState) (ts : List ℚ) (h0 : 0 ≤ s.limit)
    (hinv : TokensInv s) (hch : List.Chain (· ≤ ·) s.last_refill ts) :
    TokensInv (refillSteps s ts) := by
  induction ts generalizing s with
  | nil => exact hinv
  | cons t ts ih =>
      rcases hch with _ | ⟨hle, hch⟩
      have h1 := tokensInv_refill s t h0 hinv hle
      have := ih (refill s t) (by rw [refill_limit]; exact h0) h1
        (by rw [refill_last_refill]; exact hch)
      simpa [refillSteps, List.foldl_cons] using this

theorem runCall_limit (s : RateLimiterState) (c : AcquireCall) :
    (runCall s c).limit = s.limit := by
  simp [runCall, refillSteps_limit]

theorem tokensInv_runCall (s : RateLimiterState) (c : AcquireCall)
    (hv : ValidCall s c) : TokensInv (runCall s c) := by
  obtain ⟨hreq1, _, hch, hdone⟩ := hv
  have hle := refillSteps_tokens_le s c.t0 c.waits
  constructor
  · show 0 ≤ (refillSteps s (c.t0 :: c.waits)).tokens - c.req
    omega
  · show (refillSteps s (c.t0 :: c.waits)).tokens - c.req ≤ (runCall s c).limit
    rw [runCall_limit]
    omega

theorem runAcquires_limit {s s' : RateLimiterState} {cs : List AcquireCall}
    (h : RunAcquires s cs s') : s'.limit = s.limit := by
  induction h with
  | nil => rfl
  | cons _ _ ih => exact ih.trans (runCall_limit _ _)

theorem runAcquires_tokensInv {s s' : RateLimiterState} {cs : List AcquireCall}
    (h : RunAcquires s cs s') : 0 ≤ s.limit → TokensInv s → TokensInv s' := by
  induction h with
  | nil => exact fun _ hinv => hinv
  | cons hv _ ih =>
      intro h0 hinv
      exact ih (by rw [runCall_limit]; exact h0) (tokensInv_runCall _ _ hv)

theorem chain_append_left {α : Type} {r : α → α → Prop} {a : α} {l1 l2 : List α}
    (h : List.Chain r a (l1 ++ l2)) : List.Chain r a l1 := by
  induction l1 generalizing a with
  | nil => exact List.Chain.nil
  | cons b l1 ih =>
      rcases h with _ | ⟨hab, h⟩
      exact List.Chain.cons hab (ih h)

/-- C4: starting from a freshly constructed limiter with positive `limit`,
after any finite sequence of completed `acquire` calls — each requesting
between 1 and `limit` tokens, at monotone wall-clock times — the invariant
`0 ≤ tokens ≤ limit` holds (first conjunct: after every consume step, i.e.
after every call; every intermediate state of the sequence is itself the
final state of a shorter `RunAcquires`).  The second conjunct covers the
other observation points inside a next call: after any prefix of its refill
steps the invariant holds as well. -/
theorem rateLimiter_tokens_invariant (limit : ℤ) (window t_init : ℚ)
    (cs : List AcquireCall) (s' : RateLimiterState) (hlim : 0 < limit)
    (hrun : RunAcquires (RateLimiter.init limit window t_init) cs s') :
    (0 ≤ s'.tokens ∧ s'.tokens ≤ limit) ∧
    ∀ ts1 ts2 : List ℚ, List.Chain (· ≤ ·) s'.last_refill (ts1 ++ ts2) →
      0 ≤ (refillSteps s' ts1).tokens ∧ (refillSteps s' ts1).tokens ≤ limit := by
  have hl : s'.limit = limit := runAcquires_limit hrun
  have h0 : (0 : ℤ) ≤ (RateLimiter.init limit window t_init).limit := le_of_lt hlim
  have hinit : TokensInv (RateLimiter.init limit window t_init) :=
    ⟨le_of_lt hlim, le_refl _⟩
  have hinv : TokensInv s' := runAcquires_tokensInv hrun h0 hinit
  refine ⟨⟨hinv.1, hl ▸ hinv.2⟩, ?_⟩
  intro ts1 ts2 hch
  have h1 := tokensInv_refillSteps s' ts1 (hl ▸ le_of_lt hlim) hinv (chain_append_left hch)
  exact ⟨h1.1, by rw [← hl, ← refillSteps_limit s' ts1]; exact h1.2⟩

/-- C4 witness: `RateLimiter(2, 1)` constructed at time 0, one completed
`acquire(1)` at time 0. -/
theorem rateLimiter_tokens_invariant_witness :
    0 ≤ (runCall (RateLimiter.init 2 1 0) ⟨1, 0, []⟩).tokens ∧
    (runCall (RateLimiter.init 2 1 0) ⟨1, 0, []⟩).tokens ≤ 2 :=
  (rateLimiter_tokens_invariant 2 1 0 [⟨1, 0, []⟩] _ (by decide)
    (RunAcquires.cons
      ⟨by norm_num, by norm_num [RateLimiter.init],
       List.Chain.cons (by norm_num [RateLimiter.init]) (List.Chain.nil),
       by norm_num [refillSteps, refill, RateLimiter.init, pyInt]⟩
      (RunAcquires.nil _))).1

theorem retryLoop_all_fail {E V : Type} (f : ℕ → PyOutcome E V) (e : ℕ → E)
    (hf : ∀ i, f i = PyOutcome.exn (e i)) :
    ∀ (r attempt calls : ℕ) (last : Option E), 1 ≤ r →
      retryLoop f r attempt last calls =
        (RetryResult.raised (e (attempt + r - 1)), calls + r) := by
  intro r
  induction r with
  | zero => intro _ _ _ h; omega
  | succ r ih =>
      intro attempt calls last _
      have hstep : retryLoop f (r + 1) attempt last calls =
          retryLoop f r (attempt + 1) (some (e attempt)) (calls + 1) := by
        show (match f attempt with
              | PyOutcome.ok v => (RetryResult.value v, calls + 1)
              | PyOutcome.exn e => retryLoop f r (attempt + 1) (some e) (calls + 1)) = _
        rw [hf attempt]
      rcases Nat.eq_zero_or_pos r with hr | hr
      · subst hr
        rw [hstep]
        simp [retryLoop]
      · rw [hstep, ih (attempt + 1) (calls + 1) (some (e attempt)) hr,
          (by omega : attempt + 1 + r - 1 = attempt + (r + 1) - 1),
          (by omega : calls + 1 + r = calls + (r + 1))]

/-- C3: a `RetryHandler` with `max_retries = m ≥ 0` running an operation that
raises on every invocation calls it exactly `m + 1` times and re-raises the
exception object of the final attempt (attempt index `m`) verbatim — the
fallback `Exception("Unknown error occurred")` is not reached. -/
theorem retryHandler_exhaustion {E V : Type} (m : ℤ) (hm : 0 ≤ m)
    (f : ℕ → PyOutcome E V) (e : ℕ → E) (hf : ∀ i, f i = PyOutcome.exn (e i)) :
    RetryHandler.retry m f = (RetryResult.raised (e m.toNat), m.toNat + 1) := by
  unfold RetryHandler.retry
  have h1 : (m + 1).toNat = m.toNat + 1 := by omega
  rw [h1, retryLoop_all_fail f e hf (m.toNat + 1) 0 0 none (by omega)]
  simp

/-- C3 witness: `max_retries = 2`, operation raising exception `i` on attempt
`i`: three invocations, exception `2` (the third attempt's) re-raised. -/
theorem retryHandler_exhaustion_witness :
    RetryHandler.retry (E := ℕ) (V := ℕ) 2 (fun i => PyOutcome.exn i) =
      (RetryResult.raised 2, 3) :=
  retryHandler_exhaustion 2 (by norm_num) (fun i => PyOutcome.exn i)
    (fun i => i) (fun _ => rfl)

theorem retryLoop_outcome {E V : Type} (f : ℕ → PyOutcome E V) :
    ∀ (r attempt calls : ℕ) (last : Option E), 1 ≤ r →
      ∃ k, 1 ≤ k ∧ k ≤ r ∧
        ((∃ v, retryLoop f r attempt last calls = (RetryResult.value v, calls + k) ∧
            f (attempt + k - 1) = PyOutcome.ok v) ∨
         (∃ e, retryLoop f r attempt last calls = (RetryResult.raised e, calls + k) ∧
            f (attempt + k - 1) = PyOutcome.exn e)) := by
  intro r
  induction r with
  | zero => intro _ _ _ h; omega
  | succ r ih =>
      intro attempt calls last _
      cases hcall : f attempt with
      | ok v =>
          have hstep : retryLoop f (r + 1) attempt last calls =
              (RetryResult.value v, calls + 1) := by
            show (match f attempt with
                  | PyOutcome.ok v => (RetryResult.value v, calls + 1)
                  | PyOutcome.exn e => retryLoop f r (attempt + 1) (some e) (calls + 1)) = _
            rw [hcall]
          exact ⟨1, le_refl _, by omega, Or.inl ⟨v, hstep, by simpa using hcall⟩⟩
      | exn e0 =>
          have hstep : retryLoop f (r + 1) attempt last calls =
              retryLoop f r (attempt + 1) (some e0) (calls + 1) := by
            show (match f attempt with
                  | PyOutcome.ok v => (RetryResult.value v, calls + 1)
                  | PyOutcome.exn e => retryLoop f r (attempt + 1) (some e) (calls + 1)) = _
            rw [hcall]
          rcases Nat.eq_zero_or_pos r with hr | hr
          · subst hr
            refine ⟨1, le_refl _, by omega,
              Or.inr ⟨e0, ?_, by simpa using hcall⟩⟩
            rw [hstep]
            simp [retryLoop]
          · obtain ⟨k, hk1, hkr, hcase⟩ := ih (attempt + 1) (calls + 1) (some e0) hr
            refine ⟨k + 1, by omega, by omega, ?_⟩
            rcases hcase with ⟨v, hv, hfv⟩ | ⟨e, he, hfe⟩
            · refine Or.inl ⟨v, ?_, by convert hfv using 2; omega⟩
              rw [hstep, hv]
              congr 1
              omega
            · refine Or.inr ⟨e, ?_, by convert hfe using 2; omega⟩
              rw [hstep, he]
              congr 1
              omega

/-- C10: with `max_retries = m ≥ 0`, `RetryHandler.retry` either returns a
value produced by the last invocation of the operation made, or re-raises the
exception raised by that last invocation; in particular the
`Exception("Unknown error occurred")` fallback at line 274 is unreachable. -/
theorem retryHandler_result_from_operation {E V : Type} (m : ℤ) (hm : 0 ≤ m)
    (f : ℕ → PyOutcome E V) :
    (RetryHandler.retry m f).1 ≠ RetryResult.unknownError ∧
    ((∃ v, (RetryHandler.retry m f).1 = RetryResult.value v ∧
        f ((RetryHandler.retry m f).2 - 1) = PyOutcome.ok v) ∨
     (∃ e, (RetryHandler.retry m f).1 = RetryResult.raised e ∧
        f ((RetryHandler.retry m f).2 - 1) = PyOutcome.exn e)) := by
  obtain ⟨k, hk1, _, hcase⟩ :=
    retryLoop_outcome f (m + 1).toNat 0 0 none (by omega)
  unfold RetryHandler.retry
  rcases hcase with ⟨v, hv, hfv⟩ | ⟨e, he, hfe⟩
  · rw [hv]
    refine ⟨by simp, Or.inl ⟨v, rfl, ?_⟩⟩
    simpa using hfv
  · rw [he]
    refine ⟨by simp, Or.inr ⟨e, rfl, ?_⟩⟩
    simpa using hfe

/-- C10 witness: `max_retries = 0` with an operation returning `5` at once. -/
theorem retryHandler_result_from_operation_witness :
    (RetryHandler.retry (E := ℕ) 0 (fun _ => PyOutcome.ok (5 : ℕ))).1 ≠
        RetryResult.unknownError ∧
    ((∃ v, (RetryHandler.retry (E := ℕ) 0 (fun _ => PyOutcome.ok (5 : ℕ))).1 =
          RetryResult.value v ∧
        (fun _ => PyOutcome.ok (E := ℕ) (5 : ℕ))
            ((RetryHandler.retry (E := ℕ) 0 (fun _ => PyOutcome.ok (5 : ℕ))).2 - 1) =
          PyOutcome.ok v) ∨
     (∃ e, (RetryHandler.retry (E := ℕ) 0 (fun _ => PyOutcome.ok (5 : ℕ))).1 =
          RetryResult.raised e ∧
        (fun _ => PyOutcome.ok (E := ℕ) (5 : ℕ))
            ((RetryHandler.retry (E := ℕ) 0 (fun _ => PyOutcome.ok (5 : ℕ))).2 - 1) =
          PyOutcome.exn e)) :=
  retryHandler_result_from_operation 0 (by norm_num) (fun _ => PyOutcome.ok (5 : ℕ))

/-- C2: the claim (like the code's own docstring and unit tests) says that a
header map missing any of the three `x-ratelimit-*` headers yields `None`.
The code instead falls back to `headers.get(name, 0)`, on which `int`/`float`
succeed, so an empty header map yields a populated
`RateLimitInfo(limit=0, remaining=0, reset=0.0, used=0)` — a code bug.  With
only `limit`/`remaining` present, the same fallback yields `reset = 0.0`
instead of `None`; fully numeric headers do give the claimed populated record
with `used = limit - remaining`. -/
theorem parse_rate_limit_missing_headers_not_none :
    HTTPClientHelper.parse_rate_limit [] = some ⟨0, 0, 0, 0⟩ ∧
    HTTPClientHelper.parse_rate_limit
        [("x-ratelimit-limit", "60"), ("x-ratelimit-remaining", "59")] =
      some ⟨60, 59, 0, 1⟩ ∧
    HTTPClientHelper.parse_rate_limit
        [("x-ratelimit-limit", "60"), ("x-ratelimit-remaining", "59"),
         ("x-ratelimit-reset", "100")] =
      some ⟨60, 59, 100, 1⟩ := by
  refine ⟨rfl, ?_, ?_⟩ <;> decide

/-- C8 counterexample: the body `"null"` parses as JSON (`json.loads("null")`
is Python's `None`, here `PyJson.null`) and has no `message` field, so the
claim demands the string form `str(None) = "None"`; the code's
`isinstance(data, dict)` guard fails and it returns the raw body `"null"`
unchanged. -/
theorem get_error_message_non_object_counterexample :
    HTTPClientHelper.get_error_message (some PyJson.null) "null" =
        PyJson.str "null" ∧
    PyJson.pyStr PyJson.null = "None" ∧
    ("null" : String) ≠ "None" :=
  ⟨rfl, rfl, by decide⟩

/-- C8 amended: `get_error_message` returns the `message` field of a parsed
JSON object when present, the string form of the object when absent, and for
every other body — non-object JSON as well as unparseable text — the raw body
unchanged. -/
theorem get_error_message_spec (parsed : Option PyJson) (text : String) :
    (∀ fields v, parsed = some (PyJson.obj fields) →
        jsonGet fields "message" = some v →
        HTTPClientHelper.get_error_message parsed text = v) ∧
    (∀ fields, parsed = some (PyJson.obj fields) →
        jsonGet fields "message" = none →
        HTTPClientHelper.get_error_message parsed text =
          PyJson.str (PyJson.pyStr (PyJson.obj fields))) ∧
    ((∀ fields, parsed ≠ some (PyJson.obj fields)) →
        HTTPClientHelper.get_error_message parsed text = PyJson.str text) := by
  refine ⟨?_, ?_, ?_⟩
  · intro fields v hp hg
    subst hp
    simp [HTTPClientHelper.get_error_message, hg]
  · intro fields hp hg
    subst hp
    simp [HTTPClientHelper.get_error_message, hg]
  · intro hno
    match hp : parsed with
    | none => rfl
    | some PyJson.null => rfl
    | some (PyJson.bool b) => rfl
    | some (PyJson.int n) => rfl
    | some (PyJson.float q) => rfl
    | some (PyJson.str s) => rfl
    | some (PyJson.arr xs) => rfl
    | some (PyJson.obj fields) => exact absurd rfl (hno fields)

/-- C8 witness: an object with a `message` field returns that value. -/
theorem get_error_message_spec_witness :
    HTTPClientHelper.get_error_message
        (some (PyJson.obj [("message", PyJson.str "hi")])) "x" = PyJson.str "hi" :=
  (get_error_message_spec (some (PyJson.obj [("message", PyJson.str "hi")])) "x").1
    [("message", PyJson.str "hi")] (PyJson.str "hi") rfl rfl

theorem dictGet_eq_none_of_not_mem {α : Type} {d : List (String × α)} {key : String}
    (h : key ∉ d.map Prod.fst) : dictGet d key = none := by
  induction d with
  | nil => rfl
  | cons p rest ih =>
      obtain ⟨k, v⟩ := p
      simp only [List.map_cons, List.mem_cons] at h
      push_neg at h
      simp only [dictGet, if_neg (Ne.symm h.1)]
      exact ih h.2

theorem dictMem_iff_mem_map {α : Type} (d : List (String × α)) (key : String) :
    dictMem d key = true ↔ key ∈ d.map Prod.fst := by
  induction d with
  | nil => simp [dictMem, dictGet]
  | cons p rest ih =>
      obtain ⟨k, v⟩ := p
      by_cases hk : k = key
      · subst hk; simp [dictMem, dictGet]
      · simp only [dictMem, dictGet, if_neg hk, List.map_cons, List.mem_cons]
        rw [dictMem] at ih
        rw [ih]
        constructor
        · exact Or.inr
        · rintro (h | h)
          · exact absurd h.symm hk
          · exact h

theorem dictDel_map_fst {α : Type} (d : List (String × α)) (key : String) :
    (dictDel d key).map Prod.fst = (d.map Prod.fst).erase key := by
  induction d with
  | nil => rfl
  | cons p rest ih =>
      obtain ⟨k, v⟩ := p
      by_cases hk : k = key
      · subst hk
        simp [dictDel, List.erase_cons_head]
      · simp [dictDel, hk, List.erase_cons, ih]

theorem dictGet_dictDel_self {α : Type} {d : List (String × α)} (key : String)
    (hnd : (d.map Prod.fst).Nodup) : dictGet (dictDel d key) key = none := by
  apply dictGet_eq_none_of_not_mem
  rw [dictDel_map_fst]
  exact hnd.not_mem_erase

theorem dictInsert_map_fst {α : Type} (d : List (String × α)) (key : String) (val : α) :
    (dictInsert d key val).map Prod.fst =
      if key ∈ d.map Prod.fst then d.map Prod.fst else d.map Prod.fst ++ [key] := by
  induction d with
  | nil => simp [dictInsert]
  | cons p rest ih =>
      obtain ⟨k, v⟩ := p
      by_cases hk : k = key
      · subst hk; simp [dictInsert]
      · simp only [dictInsert, if_neg hk, List.map_cons, ih, List.mem_cons]
        by_cases hm : key ∈ rest.map Prod.fst
        · rw [if_pos hm, if_pos (Or.inr hm)]
        · rw [if_neg hm, if_neg ?_]
          · simp
          · rintro (h | h)
            · exact hk h.symm
            · exact hm h

theorem dictInsert_length {α : Type} (d : List (String × α)) (key : String) (val : α) :
    (dictInsert d key val).length =
      if key ∈ d.map Prod.fst then d.length else d.length + 1 := by
  have h1 : (dictInsert d key val).length = ((dictInsert d key val).map Prod.fst).length :=
    (List.length_map _ _).symm
  rw [h1, dictInsert_map_fst]
  by_cases hm : key ∈ d.map Prod.fst
  · rw [if_pos hm, if_pos hm, List.length_map]
  · rw [if_neg hm, if_neg hm, List.length_append, List.length_map]
    rfl

theorem dictDel_length_of_mem {α : Type} {d : List (String × α)} {key : String}
    (h : key ∈ d.map Prod.fst) : (dictDel d key).length = d.length - 1 := by
  have h1 : (dictDel d key).length = ((dictDel d key).map Prod.fst).length :=
    (List.length_map _ _).symm
  rw [h1, dictDel_map_fst, List.length_erase_of_mem h, List.length_map]

theorem dictGet_of_mem_nodup {α : Type} {d : List (String × α)} {key : String} {v : α}
    (hnd : (d.map Prod.fst).Nodup) (hm : (key, v) ∈ d) : dictGet d key = some v := by
  induction d with
  | nil => cases hm
  | cons p rest ih =>
      obtain ⟨k, w⟩ := p
      simp only [List.map_cons, List.nodup_cons] at hnd
      rcases List.mem_cons.mp hm with h | h
      · cases h
        simp [dictGet]
      · have hk : k ≠ key := by
          intro hk
          subst hk
          exact hnd.1 (List.mem_map.mpr ⟨(k, v), h, rfl⟩)
        simp only [dictGet, if_neg hk]
        exact ih hnd.2 h

theorem minByValAux_spec (rest : List (String × ℚ)) :
    ∀ (k : String) (v : ℚ), ∃ rv : ℚ,
      ((minByValAux k v rest = k ∧ rv = v) ∨ (minByValAux k v rest, rv) ∈ rest) ∧
      rv ≤ v ∧ ∀ p ∈ rest, rv ≤ p.2 := by
  induction rest with
  | nil => exact fun k v => ⟨v, Or.inl ⟨rfl, rfl⟩, le_refl _, by simp⟩
  | cons p rest ih =>
      intro k v
      obtain ⟨k', v'⟩ := p
      by_cases hv : v' < v
      · obtain ⟨rv, hmem, hle, hall⟩ := ih k' v'
        refine ⟨rv, ?_, ?_, ?_⟩
        · simp only [minByValAux, if_pos hv]
          rcases hmem with ⟨h1, h2⟩ | h
          · exact Or.inr (by rw [h1, h2]; exact List.mem_cons_self _ _)
          · exact Or.inr (List.mem_cons_of_mem _ h)
        · exact hle.trans hv.le
        · intro q hq
          rcases List.mem_cons.mp hq with h | h
          · rw [h]; exact hle
          · exact hall q h
      · obtain ⟨rv, hmem, hle, hall⟩ := ih k v
        push_neg at hv
        refine ⟨rv, ?_, hle, ?_⟩
        · simp only [minByValAux, if_neg (not_lt.mpr hv)]
          rcases hmem with ⟨h1, h2⟩ | h
          · exact Or.inl ⟨h1, h2⟩
          · exact Or.inr (List.mem_cons_of_mem _ h)
        · intro q hq
          rcases List.mem_cons.mp hq with h | h
          · rw [h]; exact hle.trans hv
          · exact hall q h

theorem minByVal_spec {d : List (String × ℚ)} {k : String}
    (h : minByVal d = some k) : ∃ t : ℚ, (k, t) ∈ d ∧ ∀ p ∈ d, t ≤ p.2 := by
  match d, h with
  | (k0, v0) :: rest, h =>
      have hk : minByValAux k0 v0 rest = k := by
        simpa [minByVal] using h
      obtain ⟨rv, hmem, hle, hall⟩ := minByValAux_spec rest k0 v0
      refine ⟨rv, ?_, ?_⟩
      · rcases hmem with ⟨h1, h2⟩ | hm
        · rw [← hk, h1, h2]; exact List.mem_cons_self _ _
        · rw [← hk]; exact List.mem_cons_of_mem _ hm
      · intro p hp
        rcases List.mem_cons.mp hp with h | h
        · rw [h]; exact hle
        · exact hall p h

/-- C6 counterexample: an entry whose `expires_at` is exactly the current
time.  The claim says a `get` at `now >= expiresAt` returns `None`; the code's
`is_expired` test is the strict `time.time() > expires_at`, so at
`now = expires_at` it returns the stored value. -/
theorem memoryCache_get_at_expiry_counterexample :
    (MemoryCache.get (⟨300, 1000, [("k", ⟨7, 5⟩)], [("k", 0)]⟩ : MemoryCache ℕ)
        "k" 5).1 = some 7 ∧
    ¬ ((5 : ℚ) < 5) :=
  ⟨rfl, by decide⟩

/-- C6 amended: `get` returns the stored value while `now ≤ expiresAt`; a get
strictly after the expiry instant (`now > expiresAt`) returns `None` and
removes the stale entry from both the entry dict and the access-time dict. -/
theorem memoryCache_get_expiry {α : Type} (c : MemoryCache α) (key : String)
    (now : ℚ) (e : CacheEntry α) (he : dictGet c.cache key = some e)
    (hsync : SyncInv c) :
    (e.expires_at < now →
      (c.get key now).1 = none ∧
      dictMem (c.get key now).2.cache key = false ∧
      dictMem (c.get key now).2.access_times key = false) ∧
    (now ≤ e.expires_at → (c.get key now).1 = some e.data) := by
  obtain ⟨hmap, hnd⟩ := hsync
  constructor
  · intro hlt
    have hexp : e.is_expired now = true := by
      simp [CacheEntry.is_expired, hlt]
    refine ⟨?_, ?_, ?_⟩
    · simp [MemoryCache.get, he, hexp]
    · simp [MemoryCache.get, he, hexp, dictMem, dictGet_dictDel_self key hnd]
    · by_cases hm : dictMem c.access_times key = true
      · simp only [dictMem] at hm
        simp [MemoryCache.get, he, hexp, hm, dictMem,
          dictGet_dictDel_self key (hmap ▸ hnd)]
      · rw [Bool.not_eq_true] at hm
        simp only [dictMem] at hm
        simp [MemoryCache.get, he, hexp, dictMem, hm]
  · intro hle
    have hexp : e.is_expired now = false := by
      simp [CacheEntry.is_expired, not_lt.mpr hle]
    simp [MemoryCache.get, he, hexp]

/-- C6 witness: a get at `now = 10` on an entry expiring at 5 returns `None`
and removes the entry from both dicts. -/
theorem memoryCache_get_expiry_witness :
    ((MemoryCache.get (⟨300, 1000, [("k", ⟨7, 5⟩)], [("k", 0)]⟩ : MemoryCache ℕ)
        "k" 10).1 = none ∧
     dictMem (MemoryCache.get (⟨300, 1000, [("k", ⟨7, 5⟩)], [("k", 0)]⟩ : MemoryCache ℕ)
        "k" 10).2.cache "k" = false ∧
     dictMem (MemoryCache.get (⟨300, 1000, [("k", ⟨7, 5⟩)], [("k", 0)]⟩ : MemoryCache ℕ)
        "k" 10).2.access_times "k" = false) :=
  (memoryCache_get_expiry (⟨300, 1000, [("k", ⟨7, 5⟩)], [("k", 0)]⟩ : MemoryCache ℕ)
    "k" 10 ⟨7, 5⟩ rfl ⟨rfl, by decide⟩).1 (by decide)

theorem syncInv_set_step {α : Type} (c : MemoryCache α) (key : String) (data : α)
    (now : ℚ) (ttl : Option ℚ) (hmax : 1 ≤ c.max_size) (hsync : SyncInv c)
    (hfresh : dictMem c.cache key = false) (hlen : c.cache.length ≤ c.max_size) :
    SyncInv (c.set key data now ttl) ∧
    (c.set key data now ttl).cache.length = min (c.cache.length + 1) c.max_size ∧
    (c.set key data now ttl).max_size = c.max_size ∧
    ∀ k', k' ∈ (c.set key data now ttl).cache.map Prod.fst →
      k' = key ∨ k' ∈ c.cache.map Prod.fst := by
  obtain ⟨hmap, hnd⟩ := hsync
  have hfresh' : key ∉ c.cache.map Prod.fst := by
    intro hmem
    rw [← dictMem_iff_mem_map] at hmem
    rw [hfresh] at hmem
    cases hmem
  have hlens : c.access_times.length = c.cache.length := by
    rw [← List.length_map c.cache Prod.fst, ← List.length_map c.access_times Prod.fst, hmap]
  by_cases hcond : c.max_size ≤ c.cache.length
  · -- at capacity: the eviction branch runs
    have hfull : c.cache.length = c.max_size := le_antisymm hlen hcond
    have haccne : c.access_times ≠ [] := by
      intro h
      rw [h] at hlens
      simp at hlens
      omega
    obtain ⟨p, rest, hacc⟩ : ∃ p rest, c.access_times = p :: rest := by
      cases hap : c.access_times with
      | nil => exact absurd hap haccne
      | cons p rest => exact ⟨p, rest, rfl⟩
    have hmin : ∃ ek, minByVal c.access_times = some ek := by
      rw [hacc]
      exact ⟨_, rfl⟩
    obtain ⟨ek, hek⟩ := hmin
    obtain ⟨tk, hmem, _⟩ := minByVal_spec hek
    have hekmem : ek ∈ c.access_times.map Prod.fst :=
      List.mem_map.mpr ⟨(ek, tk), hmem, rfl⟩
    have hekcache : ek ∈ c.cache.map Prod.fst := hmap ▸ hekmem
    have hset : c.set key data now ttl =
        { c with
          cache := dictInsert (dictDel c.cache ek) key
            ⟨data, now + ttlOrDefault ttl c.default_ttl⟩,
          access_times := dictInsert (dictDel c.access_times ek) key now } := by
      simp [MemoryCache.set, if_pos hcond, MemoryCache.evict_oldest, hek]
    have hkey_del : key ∉ (dictDel c.cache ek).map Prod.fst := by
      rw [dictDel_map_fst]
      intro h
      exact hfresh' (List.mem_of_mem_erase h)
    have hkey_del' : key ∉ (dictDel c.access_times ek).map Prod.fst := by
      rw [dictDel_map_fst, ← hmap]
      intro h
      exact hfresh' (List.mem_of_mem_erase h)
    have hdelmap : (dictDel c.cache ek).map Prod.fst =
        (dictDel c.access_times ek).map Prod.fst := by
      rw [dictDel_map_fst, dictDel_map_fst, hmap]
    have hdellen : (dictDel c.cache ek).length = c.cache.length - 1 :=
      dictDel_length_of_mem hekcache
    have hdelnd : ((dictDel c.cache ek).map Prod.fst).Nodup := by
      rw [dictDel_map_fst]
      exact hnd.erase ek
    rw [hset]
    refine ⟨⟨?_, ?_⟩, ?_, rfl, ?_⟩
    · show (dictInsert (dictDel c.cache ek) key _).map Prod.fst =
        (dictInsert (dictDel c.access_times ek) key now).map Prod.fst
      rw [dictInsert_map_fst, dictInsert_map_fst, if_neg hkey_del, if_neg hkey_del', hdelmap]
    · show ((dictInsert (dictDel c.cache ek) key _).map Prod.fst).Nodup
      rw [dictInsert_map_fst, if_neg hkey_del]
      simp only [List.nodup_append, List.nodup_singleton]
      exact ⟨hdelnd, trivial, by simpa using fun h => hkey_del h⟩
    · show (dictInsert (dictDel c.cache ek) key _).length = _
      rw [dictInsert_length, if_neg hkey_del, hdellen, hfull]
      omega
    · intro k' hk'
      rw [dictInsert_map_fst, if_neg hkey_del] at hk'
      rcases List.mem_append.mp hk' with h | h
      · rw [dictDel_map_fst] at h
        exact Or.inr (List.mem_of_mem_erase h)
      · simp at h
        exact Or.inl h
  · -- below capacity: no eviction
    have hset : c.set key data now ttl =
        { c with
          cache := dictInsert c.cache key ⟨data, now + ttlOrDefault ttl c.default_ttl⟩,
          access_times := dictInsert c.access_times key now } := by
      simp [MemoryCache.set, if_neg hcond]
    have hkey' : key ∉ c.access_times.map Prod.fst := hmap ▸ hfresh'
    rw [hset]
    refine ⟨⟨?_, ?_⟩, ?_, rfl, ?_⟩
    · show (dictInsert c.cache key _).map Prod.fst =
        (dictInsert c.access_times key now).map Prod.fst
      rw [dictInsert_map_fst, dictInsert_map_fst, if_neg hfresh', if_neg hkey', hmap]
    · show ((dictInsert c.cache key _).map Prod.fst).Nodup
      rw [dictInsert_map_fst, if_neg hfresh']
      simp only [List.nodup_append, List.nodup_singleton]
      exact ⟨hnd, trivial, by simpa using fun h => hfresh' h⟩
    · show (dictInsert c.cache key _).length = _
      rw [dictInsert_length, if_neg hfresh']
      omega
    · intro k' hk'
      rw [dictInsert_map_fst, if_neg hfresh'] at hk'
      rcases List.mem_append.mp hk' with h | h
      · exact Or.inr h
      · simp at h
        exact Or.inl h

theorem setCalls_size_aux {α : Type} (calls : List (String × α × ℚ)) :
    ∀ (c : MemoryCache α), 1 ≤ c.max_size → SyncInv c →
      (∀ call ∈ calls, dictMem c.cache call.1 = false) →
      (calls.map Prod.fst).Nodup → c.cache.length ≤ c.max_size →
      (setCalls c calls).cache.length = min (c.cache.length + calls.length) c.max_size := by
  induction calls with
  | nil =>
      intro c hmax hsync hfresh hdist hlen
      simp only [setCalls, List.foldl_nil, List.length_nil, Nat.add_zero]
      omega
  | cons call rest ih =>
      intro c hmax hsync hfresh hdist hlen
      obtain ⟨key, data, t⟩ := call
      obtain ⟨hsync', hlen', hmax', hsub⟩ :=
        syncInv_set_step c key data t none hmax hsync
          (hfresh _ (List.mem_cons_self _ _)) hlen
      simp only [List.map_cons, List.nodup_cons] at hdist
      have hfresh' : ∀ call ∈ rest, dictMem (c.set key data t none).cache call.1 = false := by
        intro call hc
        cases hmem : dictMem (c.set key data t none).cache call.1 with
        | false => rfl
        | true =>
            exfalso
            rcases hsub call.1 ((dictMem_iff_mem_map _ _).mp hmem) with h | h
            · exact hdist.1 (h ▸ List.mem_map.mpr ⟨call, hc, rfl⟩)
            · have := hfresh call (List.mem_cons_of_mem _ hc)
              rw [(dictMem_iff_mem_map _ _).mpr h] at this
              cases this
      have hstep : setCalls c ((key, data, t) :: rest) =
          setCalls (c.set key data t none) rest := rfl
      rw [hstep, ih (c.set key data t none) (hmax' ▸ hmax) hsync' hfresh' hdist.2
        (by rw [hlen', hmax']; omega)]
      rw [hlen', hmax']
      simp only [List.length_cons]
      omega

/-- C5 counterexample: with `maxSize = 0` the claim fails.  `set` sees
`len(cache) >= max_size`, but `_evict_oldest` is a no-op on an empty store, so
the new entry is still inserted: after one `set` call (count `1 > maxSize`)
the size is 1, not `maxSize = 0`, and no entry was removed. -/
theorem memoryCache_maxsize_zero_counterexample :
    (setCalls (MemoryCache.init ℕ 300 0) [("k", 7, 0)]).size = 1 ∧
    (MemoryCache.init ℕ 300 0).max_size = 0 :=
  ⟨rfl, rfl⟩

/-- C5 amended by adding `maxSize ≥ 1`: whenever `set` runs on a cache already
holding `maxSize ≥ 1` entries, exactly one existing entry — one with minimal
last-access timestamp — is removed before the new entry is inserted (first
conjunct), and after any sequence of more than `maxSize` `set` calls with
pairwise-distinct keys starting from a fresh cache, `size()` is exactly
`maxSize` (second conjunct). -/
theorem memoryCache_lra_eviction {α : Type}
    (c : MemoryCache α) (hsync : SyncInv c) (hfull : c.cache.length = c.max_size)
    (hmax : 1 ≤ c.max_size)
    (ttl0 : ℚ) (m : ℕ) (hm : 1 ≤ m) (calls : List (String × α × ℚ))
    (hdist : (calls.map Prod.fst).Nodup) (hcount : m < calls.length) :
    (∃ ek tk,
        minByVal c.access_times = some ek ∧
        dictGet c.access_times ek = some tk ∧
        (∀ p ∈ c.access_times, tk ≤ p.2) ∧
        (dictDel c.cache ek).length = c.max_size - 1 ∧
        ∀ (key : String) (data : α) (now : ℚ) (ttl : Option ℚ),
          (c.set key data now ttl).cache =
            dictInsert (dictDel c.cache ek) key
              ⟨data, now + ttlOrDefault ttl c.default_ttl⟩) ∧
    (setCalls (MemoryCache.init α ttl0 m) calls).size = m := by
  obtain ⟨hmap, hnd⟩ := hsync
  constructor
  · have hlens : c.access_times.length = c.cache.length := by
      rw [← List.length_map c.cache Prod.fst, ← List.length_map c.access_times Prod.fst,
        hmap]
    obtain ⟨p, rest, hacc⟩ : ∃ p rest, c.access_times = p :: rest := by
      cases hap : c.access_times with
      | nil =>
          exfalso
          rw [hap] at hlens
          simp at hlens
          omega
      | cons p rest => exact ⟨p, rest, rfl⟩
    have hek : minByVal c.access_times = some (minByValAux p.1 p.2 rest) := by
      rw [hacc]
      rfl
    obtain ⟨tk, hmem, hmin⟩ := minByVal_spec hek
    have hekmem : minByValAux p.1 p.2 rest ∈ c.access_times.map Prod.fst :=
      List.mem_map.mpr ⟨(minByValAux p.1 p.2 rest, tk), hmem, rfl⟩
    have hekcache : minByValAux p.1 p.2 rest ∈ c.cache.map Prod.fst := hmap ▸ hekmem
    refine ⟨minByValAux p.1 p.2 rest, tk, hek, ?_, hmin, ?_, ?_⟩
    · exact dictGet_of_mem_nodup (hmap ▸ hnd) hmem
    · rw [dictDel_length_of_mem hekcache, hfull]
    · intro key data now ttl
      have hcond : c.max_size ≤ c.cache.length := le_of_eq hfull.symm
      simp [MemoryCache.set, if_pos hcond, MemoryCache.evict_oldest, hek]
  · have h := setCalls_size_aux calls (MemoryCache.init α ttl0 m) hm
      ⟨rfl, List.nodup_nil⟩ (fun _ _ => rfl) hdist (by simp [MemoryCache.init])
    rw [MemoryCache.size, h]
    simp only [MemoryCache.init, List.length_nil, Nat.zero_add]
    omega

/-- C5 witness: a full two-entry cache evicts its least-recently-accessed
entry on the next `set`, and two distinct-key `set` calls against a fresh
`maxSize = 1` cache leave exactly one entry. -/
theorem memoryCache_lra_eviction_witness :
    (∃ ek tk,
        minByVal ([("a", 1), ("b", 2)] : List (String × ℚ)) = some ek ∧
        dictGet ([("a", 1), ("b", 2)] : List (String × ℚ)) ek = some tk ∧
        (∀ p ∈ ([("a", 1), ("b", 2)] : List (String × ℚ)), tk ≤ p.2) ∧
        (dictDel ([("a", ⟨1, 10⟩), ("b", ⟨2, 20⟩)] : List (String × CacheEntry ℕ))
            ek).length = 2 - 1 ∧
        ∀ (key : String) (data : ℕ) (now : ℚ) (ttl : Option ℚ),
          ((⟨300, 2, [("a", ⟨1, 10⟩), ("b", ⟨2, 20⟩)],
              [("a", 1), ("b", 2)]⟩ : MemoryCache ℕ).set key data now ttl).cache =
            dictInsert
              (dictDel ([("a", ⟨1, 10⟩), ("b", ⟨2, 20⟩)] : List (String × CacheEntry ℕ)) ek)
              key ⟨data, now + ttlOrDefault ttl 300⟩) ∧
    (setCalls (MemoryCache.init ℕ 300 1) [("x", 1, 0), ("y", 2, 1)]).size = 1 :=
  memoryCache_lra_eviction
    (⟨300, 2, [("a", ⟨1, 10⟩), ("b", ⟨2, 20⟩)], [("a", 1), ("b", 2)]⟩ : MemoryCache ℕ)
    ⟨rfl, by decide⟩ rfl (by decide) 300 1 (by decide)
    [("x", 1, 0), ("y", 2, 1)] (by decide) (by decide)

theorem sortParams_canonical (p1 p2 : List (String × String)) (hperm : p1.Perm p2)
    (hnd : (p1.map Prod.fst).Nodup) : sortParams p1 = sortParams p2 := by
  haveI : IsAntisymm (String × String) (fun a b => a.1 < b.1) :=
    ⟨fun a b h1 h2 => (lt_asymm h1 h2).elim⟩
  have htrans : ∀ a b c : String × String,
      decide (a.1 ≤ b.1) = true → decide (b.1 ≤ c.1) = true →
      decide (a.1 ≤ c.1) = true := by
    intro a b c h1 h2
    simp only [decide_eq_true_eq] at h1 h2 ⊢
    exact le_trans h1 h2
  have htotal : ∀ a b : String × String,
      (decide (a.1 ≤ b.1) || decide (b.1 ≤ a.1)) = true := by
    intro a b
    simpa using le_total a.1 b.1
  have hsorted : ∀ q : List (String × String), (q.map Prod.fst).Nodup →
      List.Sorted (fun a b : String × String => a.1 < b.1)
        (q.mergeSort (fun a b => decide (a.1 ≤ b.1))) := by
    intro q hq
    have hle := List.sorted_mergeSort htrans htotal q
    have hnd' : ((q.mergeSort (fun a b => decide (a.1 ≤ b.1))).map Prod.fst).Nodup :=
      (((List.mergeSort_perm q _).map Prod.fst).symm).nodup hq
    have hne : List.Pairwise (fun a b : String × String => a.1 ≠ b.1)
        (q.mergeSort (fun a b => decide (a.1 ≤ b.1))) := by
      rw [List.Nodup, List.pairwise_map] at hnd'
      exact hnd'
    have hle' : List.Pairwise (fun a b : String × String => a.1 ≤ b.1)
        (q.mergeSort (fun a b => decide (a.1 ≤ b.1))) :=
      hle.imp (fun h => by simpa using h)
    exact (hle'.and hne).imp (fun h => lt_of_le_of_ne h.1 h.2)
  have hnd2 : (p2.map Prod.fst).Nodup := ((hperm.map Prod.fst)).nodup hnd
  have hperm' : (p1.mergeSort (fun a b => decide (a.1 ≤ b.1))).Perm
      (p2.mergeSort (fun a b => decide (a.1 ≤ b.1))) :=
    (List.mergeSort_perm p1 _).trans (hperm.trans (List.mergeSort_perm p2 _).symm)
  exact List.eq_of_perm_of_sorted hperm' (hsorted p1 hnd) (hsorted p2 hnd2)

theorem md5hex_length (msg : List ℕ) : (md5hex msg).length = 32 := by
  simp [md5hex, md5bytes, word32LE, byteHex, String.length]

/-- C9: `_generate_key` serializes the `(endpoint, params)` pair with sorted
keys before hashing, so two parameter maps equal as mappings (permutations of
each other, keys unique) yield the same cache key regardless of insertion
order, and the key is the fixed 32-character MD5 hex digest. -/
theorem generate_key_canonical (endpoint : String) (p1 p2 : List (String × String))
    (hperm : p1.Perm p2) (hnd : (p1.map Prod.fst).Nodup) :
    MemoryCache.generate_key endpoint p1 = MemoryCache.generate_key endpoint p2 ∧
    (MemoryCache.generate_key endpoint p1).length = 32 := by
  constructor
  · unfold MemoryCache.generate_key dumpsKeyData
    rw [sortParams_canonical p1 p2 hperm hnd]
  · exact md5hex_length _

/-- C9 witness: the same two-parameter map in both insertion orders. -/
theorem generate_key_canonical_witness :
    MemoryCache.generate_key "pkg" [("a", "1"), ("b", "2")] =
      MemoryCache.generate_key "pkg" [("b", "2"), ("a", "1")] ∧
    (MemoryCache.generate_key "pkg" [("a", "1"), ("b", "2")]).length = 32 :=
  generate_key_canonical "pkg" [("a", "1"), ("b", "2")] [("b", "2"), ("a", "1")]
    (by decide) (by decide)

theorem schedBlocked_invariant (s0 : TwoTaskState)
    (h : s0.lock = some 0 ∧ s0.pc0 = TaskPC.sleeping ∧ s0.pc1 = TaskPC.entry) :
    ∀ s', SchedReach s0 s' →
      s'.pc0 = TaskPC.finished ∨
      (s'.lock = some 0 ∧ s'.pc0 = TaskPC.sleeping ∧ s'.pc1 = TaskPC.entry) := by
  intro s' hr
  induction hr with
  | refl => exact Or.inr h
  | tail _ hbc ih =>
      rcases ih with hfin | ⟨hlock, hpc0, hpc1⟩
      · cases hbc with
        | enter0_done t hl hp hok => rw [hfin] at hp; simp at hp
        | enter0_wait t hl hp hw => rw [hfin] at hp; simp at hp
        | wake0_done t hl hp hok => rw [hfin] at hp; simp at hp
        | wake0_wait t hl hp hw => rw [hfin] at hp; simp at hp
        | enter1_done t hl hp hok => exact Or.inl hfin
        | enter1_wait t hl hp hw => exact Or.inl hfin
        | wake1_done t hl hp hok => exact Or.inl hfin
        | wake1_wait t hl hp hw => exact Or.inl hfin
      · cases hbc with
        | enter0_done t hl hp hok => rw [hlock] at hl; simp at hl
        | enter0_wait t hl hp hw => rw [hlock] at hl; simp at hl
        | wake0_done t hl hp hok => exact Or.inl rfl
        | wake0_wait t hl hp hw => exact Or.inr ⟨hlock, hpc0, hpc1⟩
        | enter1_done t hl hp hok => rw [hlock] at hl; simp at hl
        | enter1_wait t hl hp hw => rw [hlock] at hl; simp at hl
        | wake1_done t hl hp hok => rw [hlock] at hl; simp at hl
        | wake1_wait t hl hp hw => rw [hlock] at hl; simp at hl

/-- C7 counterexample: `RateLimiter(1, 60)` with its token already spent, two
tasks each calling `acquire(1)`.  Task 0 runs first: its entry refill adds
nothing, so it suspends in the wait loop still holding the instance lock
(first conjunct, a real scheduler step).  From that state, in every reachable
continuation task 1 has made no progress at all on its own `acquire` — it is
still blocked at the lock — until task 0 has finished: the wait does block the
other task, refuting the claim. -/
theorem rateLimiter_acquire_blocks_counterexample :
    SchedStep schedInit schedBlocked ∧
    (∀ s', SchedReach schedBlocked s' →
      s'.pc0 ≠ TaskPC.finished → s'.pc1 = TaskPC.entry) := by
  constructor
  · have hw : (refill schedInit.limiter 0).tokens < schedInit.req0 := by
      norm_num [schedInit, refill, pyInt]
    have h := SchedStep.enter0_wait schedInit 0 rfl rfl hw
    convert h using 1
    norm_num [schedInit, schedBlocked, refill, pyInt]
  · intro s' hr hne
    rcases schedBlocked_invariant schedBlocked ⟨rfl, rfl, rfl⟩ s' hr with h | h
    · exact absurd h hne
    · exact h.2.2

/-- C7 amended: a task suspended inside `acquire` waiting for refill holds the
limiter's per-instance lock across the sleep (`async with self._lock` spans
lines 50-81, and `asyncio.sleep` does not release an `asyncio.Lock`), so
another task calling `acquire` on the same limiter is blocked at the lock —
it stays at its entry point in every reachable state until the waiting task
finishes.  `acquire` blocks not only the calling task but every task
contending for the same limiter instance. -/
theorem rateLimiter_waiting_blocks_other_acquirers (s0 s' : TwoTaskState)
    (hl : s0.lock = some 0) (hp0 : s0.pc0 = TaskPC.sleeping)
    (hp1 : s0.pc1 = TaskPC.entry) (hr : SchedReach s0 s') :
    s'.pc0 = TaskPC.finished ∨ s'.pc1 = TaskPC.entry :=
  (schedBlocked_invariant s0 ⟨hl, hp0, hp1⟩ s' hr).imp id (fun h => h.2.2)

/-- C7 witness: the blocked configuration itself. -/
theorem rateLimiter_waiting_blocks_other_acquirers_witness :
    schedBlocked.pc0 = TaskPC.finished ∨ schedBlocked.pc1 = TaskPC.entry :=
  rateLimiter_waiting_blocks_other_acquirers schedBlocked schedBlocked rfl rfl rfl
    Relation.ReflTransGen.refl

end LibIoMcp
